import Mathlib

/-!
# perfdash: category resolution, result-tree merge and query handlers

A shallow embedding of `perfdash/metrics-downloader.go` and `perfdash/perfdash.go`.

Modelling conventions.

* A Go `string` is a Lean `String`.  The operations used by the program (prefix test,
  splitting on `"_"`, concatenation, byte-wise comparison) agree on UTF-8 text with
  their code-point-wise counterparts, and `sort.Strings` orders by `<` on strings.
* A Go `map[string]V` is a finite map `GoMap V` with unique keys.  Maps are values: no
  two positions of a tree share one map object, and no map is `nil` (every map of the
  program comes from `make` or from a literal).  Reading a `nil` map behaves as reading
  an empty one, so the query handlers lose nothing by this.  The order in which `range`
  visits a map is the order of the entries; the handlers sort what they collect, and
  `sortStrings_eq_of_perm` shows that the order does not reach the result.
* A `*BuildData` is an address into a heap of `BuildData` objects (`Mem.heap`).
* `float64` values are only copied by this code, never computed with; the number type
  is the parameter `F`.
* `encoding/json` and `net/http` are outside the embedding: a handler is modelled by
  the object it hands to `serveHTTPObject`, or `none` when it returns without
  writing a response.  The receiver of a handler is the tree itself (`run` registers the
  handlers on the address of a local variable).
* `parsePerfData` and the local file system are parameters (`World`).
-/

namespace Perfdash

/-! ## Go `strings` helpers used by `getResultCategory` -/

/-- Go `strings.HasPrefix` on character sequences. -/
def HasPrefix : List Char → List Char → Bool
  | _, [] => true
  | [], _ :: _ => false
  | c :: s, d :: p => c == d && HasPrefix s p

/-- Go `strings.TrimPrefix`: `s` without the leading `p` when `s` starts with `p`,
`s` itself otherwise. -/
def TrimPrefix (s p : List Char) : List Char :=
  if HasPrefix s p then s.drop p.length else s

/-- Go `strings.Index`: position of the first occurrence of `sep` in `s`, `none` for
Go's `-1`. -/
def Index : List Char → List Char → Option Nat
  | [], sep => if sep = [] then some 0 else none
  | c :: s, sep =>
    if HasPrefix (c :: s) sep then some 0
    else (Index s sep).map (· + 1)

/-- The loop of Go `genSplit` for a non-empty separator: cut at each occurrence of
`sep`, at most `n` times, and close with the remainder. -/
def genSplit : Nat → List Char → List Char → List (List Char)
  | 0, s, _ => [s]
  | n + 1, s, sep =>
    match Index s sep with
    | none => [s]
    | some m => s.take m :: genSplit n (s.drop (m + sep.length)) sep

/-- Go `strings.Split(s, sep)`.  With an empty separator Go splits after each
character; otherwise the pieces between the occurrences of `sep` (there are at most
`len(s)` occurrences, the bound Go computes with `Count`). -/
def Split (s sep : List Char) : List (List Char) :=
  if sep = [] then s.map (fun c => [c]) else genSplit s.length s sep

/-- Category resolution, `getResultCategory` of `metrics-downloader.go`. -/
def getResultCategory (metricsFileName filePrefix category : String)
    (artifacts : List String) : String :=
  if artifacts.length ≤ 1 then category
  else
    let trimmed := TrimPrefix metricsFileName.data (filePrefix ++ "_").data
    let suiteID := String.mk ((Split trimmed "_".data).headD [])
    suiteID ++ "_" ++ category

/-! ## Go maps -/

/-- Entry lookup in an association list: the value of the first entry with key `k`. -/
def lookupE {V : Type} (k : String) : List (String × V) → Option V
  | [] => none
  | (k1, v1) :: r => if k1 = k then some v1 else lookupE k r

/-- Entry update in an association list: overwrite the entry of key `k` in place, or
add one at the end when there is none. -/
def insertE {V : Type} (k : String) (v : V) : List (String × V) → List (String × V)
  | [] => [(k, v)]
  | (k1, v1) :: r => if k1 = k then (k, v) :: r else (k1, v1) :: insertE k v r

/-- Go `map[string]V`: a finite map with unique string keys. -/
structure GoMap (V : Type) where
  entries : List (String × V)
  nodup : (entries.map Prod.fst).Nodup

namespace GoMap

/-- The empty map, `make(map[string]V)`. -/
def empty {V : Type} : GoMap V := ⟨[], List.nodup_nil⟩

/-- Map read `v, found := m[k]`. -/
def lookup {V : Type} (m : GoMap V) (k : String) : Option V := lookupE k m.entries

/-- Map write `m[k] = v`. -/
def insert {V : Type} (m : GoMap V) (k : String) (v : V) : GoMap V :=
  ⟨insertE k v m.entries, by
    have key : ∀ l : List (String × V), (insertE k v l).map Prod.fst =
        if k ∈ l.map Prod.fst then l.map Prod.fst else l.map Prod.fst ++ [k] := by
      intro l
      induction l with
      | nil => simp [insertE]
      | cons e r ih =>
        obtain ⟨k1, v1⟩ := e
        by_cases h : k1 = k
        · subst h; simp [insertE]
        · have h2 : ¬ k = k1 := fun e => h e.symm
          simp only [insertE, h, if_false, List.map_cons, ih, List.mem_cons, h2, false_or]
          split <;> simp
    rw [key]
    split
    · exact m.nodup
    · rename_i hk
      exact List.Nodup.append m.nodup (List.nodup_singleton k) (by simpa using hk)⟩

/-- The keys a `range` over the map visits (in an order Go leaves unspecified). -/
def keys {V : Type} (m : GoMap V) : List String := m.entries.map Prod.fst

end GoMap

/-! ## Data model (`perfdash.go`) -/

/-- Label of a data item (`Label`). -/
structure Label where
  Metric : String

/-- One data point (`DataItem`): bucket values, unit and labels. -/
structure DataItem (F : Type) where
  Data : GoMap F
  Unit : String
  Labels : Label

/-- Bucket values of a decoded entry (`JerryData`). -/
structure JerryData (F : Type) where
  Perc50 : F
  Perc90 : F
  Perc99 : F

/-- One decoded per-build entry of the custom data file (`JerryDataItem`). -/
structure JerryDataItem (F : Type) where
  Data : JerryData F
  Unit : String
  Labels : Label

/-- The decoded custom data file (`JerryBuildData`). -/
structure JerryBuildData (F : Type) where
  Builds : List (JerryDataItem F)
  Job : String
  Version : String

/-- The series of one metric (`BuildData`): data points per build, job and version. -/
structure BuildData (F : Type) where
  Builds : GoMap (List (DataItem F))
  Job : String
  Version : String

/-- `MetricToBuildData`: metric label to `*BuildData` (an address into the heap). -/
abbrev MetricToBuildData : Type := GoMap Nat

/-- `CategoryToMetricData`: category to metrics. -/
abbrev CategoryToMetricData : Type := GoMap MetricToBuildData

/-- `JobToCategoryData`: first-level key to categories. -/
abbrev JobToCategoryData : Type := GoMap CategoryToMetricData

/-- The memory the downloader works on: the allocated `BuildData` objects and the
result tree whose leaves point to them. -/
structure Mem (F : Type) where
  heap : List (BuildData F)
  result : JobToCategoryData

/-- The pointer stored at `tree[k][c][l]`, if that path exists. -/
def slot (tree : JobToCategoryData) (k c l : String) : Option Nat :=
  match tree.lookup k with
  | none => none
  | some cats =>
    match cats.lookup c with
    | none => none
    | some metrics => metrics.lookup l

/-- The `BuildData` a pointer refers to. -/
def Mem.deref {F : Type} (m : Mem F) (p : Nat) : Option (BuildData F) := m.heap[p]?

/-! ## `getBuildData` (`metrics-downloader.go`) -/

/-- Merge step `getBuildData`: create the missing levels of
`result[pfx][category][label]` and return the pointer stored there (`pfx` is the
parameter `prefix` of the source).  The mutex only serialises callers and has no
sequential effect.

`cats` is `result[prefix]` after the first `if` (the map found there, or the new empty
one), `metrics` is `result[prefix][category]` after the second; `r1` and `r2` are the
tree after the first and the second `if`. -/
def getBuildData {F : Type} (m : Mem F) (pfx category label job : String) : Mem F × Nat :=
  -- if _, found := result[prefix]; !found { result[prefix] = make(CategoryToMetricData) }
  let cats : CategoryToMetricData := (m.result.lookup pfx).getD GoMap.empty
  let r1 : JobToCategoryData :=
    if (m.result.lookup pfx).isSome then m.result else m.result.insert pfx cats
  -- if _, found := result[prefix][category]; !found { ... = make(MetricToBuildData) }
  let metrics : MetricToBuildData := (cats.lookup category).getD GoMap.empty
  let cats2 : CategoryToMetricData :=
    if (cats.lookup category).isSome then cats else cats.insert category metrics
  let r2 : JobToCategoryData :=
    if (cats.lookup category).isSome then r1 else r1.insert pfx cats2
  -- if _, found := result[prefix][category][label]; !found { ... = &BuildData{...} }
  -- return result[prefix][category][label]
  match metrics.lookup label with
  | some p => (⟨m.heap, r2⟩, p)
  | none =>
    let p := m.heap.length
    let fresh : BuildData F := { Builds := GoMap.empty, Job := job, Version := "" }
    (⟨m.heap ++ [fresh], r2.insert pfx (cats2.insert category (metrics.insert label p))⟩, p)

/-! ## Query handlers (`perfdash.go`) -/

/-- The query part of a request URL (`req.URL.Query()`, a `map[string][]string`). -/
structure Request where
  query : GoMap (List String)

/-- First value of URL parameter `name` (`getURLParam`). -/
def getURLParam (req : Request) (name : String) : String × Bool :=
  match req.query.lookup name with
  | none => ("", false)
  | some [] => ("", false)
  | some (v :: _) => (v, true)

/-- Go `sort.Strings`: the ascending rearrangement of the slice.  Go compares strings
byte by byte, which on UTF-8 text is the lexicographic order of the characters. -/
def sortStrings (l : List String) : List String :=
  l.insertionSort (fun a b => a.toList ≤ b.toList)

/-- Handler `ServeJobNames`: the first-level keys, sorted. -/
def ServeJobNames (j : JobToCategoryData) (_req : Request) : Option (List String) :=
  some (sortStrings j.keys)

/-- Handler `ServeCategoryNames`: the category names of a first-level key, sorted. -/
def ServeCategoryNames (j : JobToCategoryData) (req : Request) : Option (List String) :=
  let (jobname, ok) := getURLParam req "jobname"
  if !ok then none
  else
    match j.lookup jobname with
    | none => none
    | some tests => some (sortStrings tests.keys)

/-- Handler `ServeMetricNames`: the metric names of a job and category, sorted. -/
def ServeMetricNames (j : JobToCategoryData) (req : Request) : Option (List String) :=
  let (jobname, ok) := getURLParam req "jobname"
  if !ok then none
  else
    let (categoryname, ok) := getURLParam req "metriccategoryname"
    if !ok then none
    else
      match j.lookup jobname with
      | none => none
      | some categories =>
        match categories.lookup categoryname with
        | none => none
        | some tests => some (sortStrings tests.keys)

/-- Handler `ServeBuildsData`: the `*BuildData` of a job, category and metric. -/
def ServeBuildsData (j : JobToCategoryData) (req : Request) : Option Nat :=
  let (jobname, ok) := getURLParam req "jobname"
  if !ok then none
  else
    let (categoryname, ok) := getURLParam req "metriccategoryname"
    if !ok then none
    else
      let (metricname, ok) := getURLParam req "metricname"
      if !ok then none
      else
        match j.lookup jobname with
        | none => none
        | some categories =>
          match categories.lookup categoryname with
          | none => none
          | some tests =>
            match tests.lookup metricname with
            | none => none
            | some builds => some builds

/-! ## The conversion loop of `run` (`perfdash.go`) -/

/-- The code point a Go integer-to-string conversion encodes: the integer itself when
it is a valid code point, U+FFFD when it is not (a surrogate, or above U+10FFFF). -/
def runeOf (i : Nat) : Nat :=
  if i < 0xD800 ∨ (0xDFFF < i ∧ i ≤ 0x10FFFF) then i else 0xFFFD

/-- Go conversion `string(i)` of an integer index `i`: the one-character text of the
code point `i` (not its decimal digits). -/
def runeString (i : Nat) : String := String.singleton (Char.ofNat (runeOf i))

/-- The data item the loop body builds from one decoded entry. -/
def tempDataItem {F : Type} (customLabel : Label) (temp : JerryDataItem F) : DataItem F :=
  let tempCustomData : GoMap F :=
    ((GoMap.empty.insert "Perc50" temp.Data.Perc50).insert "Perc90" temp.Data.Perc90).insert
      "Perc99" temp.Data.Perc99
  { Data := tempCustomData, Unit := "ms", Labels := customLabel }

/-- The loop `for i, temp := range jerryBuildData.Builds` of `run`, from index `i` on:
each entry is stored under the key `string(i)`. -/
def convertLoop {F : Type} (customLabel : Label) :
    Nat → List (JerryDataItem F) → GoMap (List (DataItem F)) → GoMap (List (DataItem F))
  | _, [], jerryBuilds => jerryBuilds
  | i, temp :: rest, jerryBuilds =>
    convertLoop customLabel (i + 1) rest
      (jerryBuilds.insert (runeString i) [tempDataItem customLabel temp])

/-- The map `jerryBuilds` that `run` builds from the decoded custom data file. -/
def jerryBuilds {F : Type} (customLabel : Label) (jerryBuildData : JerryBuildData F) :
    GoMap (List (DataItem F)) :=
  convertLoop customLabel 0 jerryBuildData.Builds GoMap.empty

/-! ## The downloader (`metrics-downloader.go`) -/

/-- Contents of a file or of a response body (`[]byte`). -/
abbrev Bytes : Type := List (Fin 256)

/-- `MetricsBucket`: the storage service the downloader is given. -/
structure MetricsBucket where
  GetBuildNumbers : String → Except String (List Int)
  ListFilesInBuild : String → Int → String → Except String (List String)
  ReadFile : String → Int → String → Except String Bytes

/-- `DownloaderOptions`. -/
structure DownloaderOptions where
  Mode : String
  ConfigPaths : List String
  GithubConfigDirs : List String
  DefaultBuildsCount : Int
  OverrideBuildCount : Bool

/-- `Downloader`. -/
structure Downloader where
  MetricsBkt : MetricsBucket
  Options : DownloaderOptions

/-- What `getJobData` takes from outside this file: the local file system
(`os.Open` followed by `ioutil.ReadAll`, `none` when the file cannot be opened) and
the effect of `parsePerfData` on the `BuildData` it is handed. -/
structure World (F : Type) where
  readLocal : String → Option Bytes
  parsePerfData : Bytes → Int → BuildData F → BuildData F

/-- Job aggregation `getJobData`: read the fixed local file, get the slot of the fixed
prefix, category, label and job, and let `parsePerfData` fill it for the fixed build
number.  A file that cannot be opened reads as no bytes (the error is only logged). -/
def getJobData {F : Type} (w : World F) (_g : Downloader) (m : Mem F) : Mem F :=
  let buildNumber : Int := 123456789
  let fileName :=
    "/root/.go/src/perf-tests/perfdash/jerry/PodStartupLatency_PodStartupLatency_node-throughput_2020.json"
  let testDataResponse : Bytes := (w.readLocal fileName).getD []
  let JerryPrefix := "E2E"
  let JerryResultCategory := "configmap_vol_per_node_E2E"
  let JerryTestLabel := "PodStartup"
  let JerryJob := "ci-kubernetes-storage-scalability"
  let r := getBuildData m JerryPrefix JerryResultCategory JerryTestLabel JerryJob
  match r.1.heap[r.2]? with
  | none => r.1
  | some buildData =>
    ⟨r.1.heap.set r.2 (w.parsePerfData testDataResponse buildNumber buildData), r.1.result⟩

/-- Aggregation `getData`: a fresh tree filled by one `getJobData` task, which
`getData` waits for. -/
def getData {F : Type} (w : World F) (g : Downloader) : Mem F :=
  getJobData w g ⟨[], GoMap.empty⟩

/-! ## Sequences of merges -/

/-- Category `c` exists under the first-level key `k` of the tree. -/
def hasCategory (tree : JobToCategoryData) (k c : String) : Prop :=
  ∃ cats, tree.lookup k = some cats ∧ cats.lookup c ≠ none

/-- The arguments of one `getBuildData` call. -/
structure Merge where
  pfx : String
  category : String
  label : String
  job : String

/-- A sequence of `getBuildData` calls, applied in order. -/
def applyMerges {F : Type} (m : Mem F) : List Merge → Mem F
  | [] => m
  | x :: rest => applyMerges (getBuildData m x.pfx x.category x.label x.job).1 rest

/-! ## What the specification says about category resolution -/

/-- The file name without its header, in the words of the specification: what remains
of `f` after stripping a leading `P ++ "_"`, and `f` itself when it does not start so. -/
def specRemainder (f P : String) : String :=
  if (P ++ "_").toList.isPrefixOf f.toList then String.mk (f.toList.drop (P.length + 1)) else f

/-- The first underscore-delimited segment of a text, in the words of the
specification: the text before the first underscore, the whole text when it has none. -/
def specFirstSegment (s : String) : String :=
  String.mk (s.toList.takeWhile (fun c => c ≠ '_'))

/-! ## Concrete inputs -/

/-- A request whose URL carries the given parameters, one value each. -/
def requestOf (params : List (String × String)) : Request :=
  ⟨params.foldl (fun q kv => q.insert kv.1 [kv.2]) GoMap.empty⟩

/-- A small memory: one slot `a / c / l`, created for job `old`. -/
def oneSlot : Mem Nat :=
  (getBuildData ⟨[], GoMap.empty⟩ "a" "c" "l" "old").1

/-- Three merges under the key `E2E`, into two categories. -/
def smallMerges : List Merge :=
  [⟨"E2E", "load", "p99", "J"⟩, ⟨"E2E", "density", "p50", "J"⟩, ⟨"E2E", "load", "p50", "J"⟩]

/-- The memory the three merges of `smallMerges` build from an empty tree. -/
def smallMem : Mem Nat :=
  applyMerges ⟨[], GoMap.empty⟩ smallMerges

/-- A decoded custom data file with 55298 equal entries. -/
def longData : JerryBuildData Nat :=
  { Builds := List.replicate 55298 ⟨⟨50, 90, 99⟩, "ms", ⟨"m"⟩⟩, Job := "j", Version := "v" }

/-- The store of the end-to-end scenario: builds 1 and 2 of job `J`, one artifact
`E2E_Latency_<build>.json` per build. -/
def stubBucket : MetricsBucket where
  GetBuildNumbers := fun job => if job = "J" then .ok [1, 2] else .error "unknown job"
  ListFilesInBuild := fun job buildNumber _ =>
    if job = "J" ∧ buildNumber = 1 then .ok ["E2E_Latency_1.json"]
    else if job = "J" ∧ buildNumber = 2 then .ok ["E2E_Latency_2.json"]
    else .error "unknown build"
  ReadFile := fun _ _ _ => .ok []

/-! ## Lemmas on the string helpers -/

theorem HasPrefix_eq_isPrefixOf (s p : List Char) : HasPrefix s p = p.isPrefixOf s := by
  induction p generalizing s with
  | nil => cases s <;> simp [HasPrefix]
  | cons d p ih =>
    cases s with
    | nil => simp [HasPrefix]
    | cons c s =>
      simp only [HasPrefix, List.isPrefixOf, ih]
      rw [Bool.beq_comm]

theorem HasPrefix_underscore (c : Char) (s : List Char) :
    HasPrefix (c :: s) ['_'] = (c == '_') := by
  cases s <;> simp [HasPrefix]

theorem Index_underscore_none (s : List Char) (h : Index s ['_'] = none) :
    s.takeWhile (fun c => c ≠ '_') = s := by
  induction s with
  | nil => rfl
  | cons c s ih =>
    simp only [Index, HasPrefix_underscore] at h
    by_cases hc : c = '_'
    · simp [hc] at h
    · simp only [beq_iff_eq, hc, if_false, Option.map_eq_none'] at h
      rw [List.takeWhile_cons, ih h]
      simp [hc]

theorem Index_underscore_some (s : List Char) (m : Nat) (h : Index s ['_'] = some m) :
    s.take m = s.takeWhile (fun c => c ≠ '_') := by
  induction s generalizing m with
  | nil => simp [Index] at h
  | cons c s ih =>
    simp only [Index, HasPrefix_underscore] at h
    by_cases hc : c = '_'
    · simp only [hc, beq_self_eq_true, if_true, Option.some.injEq] at h
      subst h
      simp [List.takeWhile, hc]
    · simp only [beq_iff_eq, hc, if_false, Option.map_eq_some'] at h
      obtain ⟨n, hn, rfl⟩ := h
      rw [List.takeWhile_cons, List.take_succ_cons, ih n hn]
      simp [hc]

theorem Index_nil_of_ne_nil (sep : List Char) (h : sep ≠ []) : Index [] sep = none := by
  simp [Index, h]

/-- The fuel of `genSplit` never runs out: from `len(s)` on, more fuel changes nothing. -/
theorem genSplit_fuel (sep : List Char) (h : sep ≠ []) (n k : Nat) (s : List Char)
    (hn : s.length ≤ n) (hk : s.length ≤ k) : genSplit n s sep = genSplit k s sep := by
  induction n generalizing s k with
  | zero =>
    have hs : s = [] := List.length_eq_zero.mp (Nat.le_zero.mp hn)
    subst hs
    cases k with
    | zero => rfl
    | succ k => simp [genSplit, Index_nil_of_ne_nil sep h]
  | succ n ih =>
    cases k with
    | zero =>
      have hs : s = [] := List.length_eq_zero.mp (Nat.le_zero.mp hk)
      subst hs
      simp [genSplit, Index_nil_of_ne_nil sep h]
    | succ k =>
      simp only [genSplit]
      cases hi : Index s sep with
      | none => rfl
      | some m =>
        have hpos : 0 < sep.length := List.length_pos.mpr h
        have hl : (s.drop (m + sep.length)).length ≤ s.length - 1 := by
          rw [List.length_drop]
          omega
        simp only
        rw [ih k (s.drop (m + sep.length)) (by omega) (by omega)]

/-- Go `strings.Split` with a non-empty separator returns at least one piece, so the
index expression `[0]` of `getResultCategory` is always in range. -/
theorem Split_ne_nil (s sep : List Char) (h : sep ≠ []) : Split s sep ≠ [] := by
  simp only [Split, h, if_false]
  cases s with
  | nil => simp [genSplit]
  | cons c s =>
    simp only [List.length_cons, genSplit]
    cases Index (c :: s) sep <;> simp

theorem Split_underscore_head (s : List Char) :
    (Split s ['_']).headD [] = s.takeWhile (fun c => c ≠ '_') := by
  have hsep : (['_'] : List Char) ≠ [] := by simp
  simp only [Split, hsep, if_false]
  cases s with
  | nil => simp [genSplit]
  | cons c s =>
    simp only [List.length_cons, genSplit]
    cases h : Index (c :: s) ['_'] with
    | none => simpa using (Index_underscore_none _ h).symm
    | some m => simpa using Index_underscore_some _ m h

theorem TrimPrefix_spec (f P : String) :
    String.mk (TrimPrefix f.toList (P ++ "_").toList) = specRemainder f P := by
  simp only [TrimPrefix, specRemainder, HasPrefix_eq_isPrefixOf]
  have hlen : (P ++ "_").toList.length = P.length + 1 := by
    show (P ++ "_").length = P.length + 1
    rw [String.length_append]
    rfl
  rw [hlen]
  split <;> rfl

/-! ## Category resolution -/

/-- C1: with more than one artifact, `getResultCategory f P C artifacts` is
`suiteID ++ "_" ++ C`, where `suiteID` is the first underscore-delimited segment of what
remains of `f` after stripping a leading `P ++ "_"`. -/
theorem getResultCategory_suite (f P C : String) (artifacts : List String)
    (h : 1 < artifacts.length) :
    getResultCategory f P C artifacts = specFirstSegment (specRemainder f P) ++ "_" ++ C := by
  have h1 : ¬ artifacts.length ≤ 1 := Nat.not_le.mpr h
  simp only [getResultCategory, h1, if_false]
  have hsplit := Split_underscore_head (TrimPrefix f.toList (P ++ "_").toList)
  have htrim := TrimPrefix_spec f P
  simp only [String.toList] at hsplit htrim
  rw [hsplit, specFirstSegment, ← htrim]
  rfl

/-- C1, at a concrete input: three artifacts, a file name that starts with the header. -/
theorem getResultCategory_suite_witness :
    1 < ["E2E_load_1.json", "E2E_density_1.json", "x"].length ∧
      getResultCategory "E2E_load_1.json" "E2E" "Latency"
          ["E2E_load_1.json", "E2E_density_1.json", "x"] =
        specFirstSegment (specRemainder "E2E_load_1.json" "E2E") ++ "_" ++ "Latency" :=
  ⟨by decide, getResultCategory_suite _ _ _ _ (by decide)⟩

/-- C2 as stated fails: with prefix `"P"` the category of `"P_A_1.json"` is not
`"1_C"`, and that of `"P_A_2.json"` is not `"2_C"`. -/
theorem getResultCategory_example_counterexample :
    getResultCategory "P_A_1.json" "P" "C" ["P_A_1.json", "P_A_2.json"] ≠ "1_C" ∧
      getResultCategory "P_A_2.json" "P" "C" ["P_A_1.json", "P_A_2.json"] ≠ "2_C" := by
  decide

/-- C2, amended: with prefix `"P"`, category `"C"` and the artifact list
`["P_A_1.json", "P_A_2.json"]`, the category of both files resolves to `"A_C"`. -/
theorem getResultCategory_example :
    getResultCategory "P_A_1.json" "P" "C" ["P_A_1.json", "P_A_2.json"] = "A_C" ∧
      getResultCategory "P_A_2.json" "P" "C" ["P_A_1.json", "P_A_2.json"] = "A_C" := by
  decide

/-- C3: with a single artifact, `getResultCategory` returns the category unchanged,
whatever the file name and the prefix are. -/
theorem getResultCategory_single (f P C : String) (artifacts : List String)
    (h : artifacts.length = 1) : getResultCategory f P C artifacts = C := by
  simp [getResultCategory, h]

/-- C3, at a concrete input. -/
theorem getResultCategory_single_witness :
    ["E2E_Latency_1.json"].length = 1 ∧
      getResultCategory "E2E_Latency_1.json" "E2E" "Latency" ["E2E_Latency_1.json"] =
        "Latency" :=
  ⟨by decide, getResultCategory_single _ _ _ _ (by decide)⟩

/-! ## Lemmas on Go maps -/

theorem lookupE_insertE_self {V : Type} (k : String) (v : V) (l : List (String × V)) :
    lookupE k (insertE k v l) = some v := by
  induction l with
  | nil => simp [insertE, lookupE]
  | cons e r ih =>
    obtain ⟨k1, v1⟩ := e
    by_cases h : k1 = k
    · simp [insertE, lookupE, h]
    · simp [insertE, lookupE, h, ih]

theorem lookupE_insertE_ne {V : Type} (k k2 : String) (v : V) (l : List (String × V))
    (h : k2 ≠ k) : lookupE k2 (insertE k v l) = lookupE k2 l := by
  induction l with
  | nil => simp [insertE, lookupE, h.symm]
  | cons e r ih =>
    obtain ⟨k1, v1⟩ := e
    by_cases h1 : k1 = k
    · subst h1
      simp [insertE, lookupE, h.symm]
    · by_cases h2 : k1 = k2
      · subst h2
        simp [insertE, lookupE, h1]
      · simp [insertE, lookupE, h1, h2, ih]

theorem lookupE_ne_none_iff {V : Type} (k : String) (l : List (String × V)) :
    lookupE k l ≠ none ↔ k ∈ l.map Prod.fst := by
  induction l with
  | nil => simp [lookupE]
  | cons e r ih =>
    obtain ⟨k1, v1⟩ := e
    by_cases h : k1 = k
    · simp [lookupE, h]
    · have h2 : ¬ k = k1 := fun e => h e.symm
      simp [lookupE, h, h2, ih]

namespace GoMap

theorem lookup_empty {V : Type} (k : String) : (GoMap.empty : GoMap V).lookup k = none := rfl

theorem keys_empty {V : Type} : (GoMap.empty : GoMap V).keys = [] := rfl

theorem lookup_insert_self {V : Type} (m : GoMap V) (k : String) (v : V) :
    (m.insert k v).lookup k = some v :=
  lookupE_insertE_self k v m.entries

theorem lookup_insert_ne {V : Type} (m : GoMap V) (k k2 : String) (v : V) (h : k2 ≠ k) :
    (m.insert k v).lookup k2 = m.lookup k2 :=
  lookupE_insertE_ne k k2 v m.entries h

theorem mem_keys {V : Type} (m : GoMap V) (k : String) : k ∈ m.keys ↔ m.lookup k ≠ none :=
  (lookupE_ne_none_iff k m.entries).symm

theorem keys_nodup {V : Type} (m : GoMap V) : m.keys.Nodup := m.nodup

end GoMap

/-! ## Lemmas on `getBuildData` -/

/-- The shape of the tree after `getBuildData`: the requested path exists and holds
the returned pointer, and every other lookup, at each of the three levels, is what it
was before the call. -/
theorem getBuildData_shape {F : Type} (m : Mem F) (pfx category label job : String) :
    ∃ cats metrics,
      (getBuildData m pfx category label job).1.result.lookup pfx = some cats ∧
      cats.lookup category = some metrics ∧
      metrics.lookup label = some (getBuildData m pfx category label job).2 ∧
      (∀ k, k ≠ pfx →
        (getBuildData m pfx category label job).1.result.lookup k = m.result.lookup k) ∧
      (∀ c, c ≠ category →
        cats.lookup c = ((m.result.lookup pfx).getD GoMap.empty).lookup c) ∧
      (∀ l, l ≠ label →
        metrics.lookup l =
          ((((m.result.lookup pfx).getD GoMap.empty).lookup category).getD GoMap.empty).lookup l) := by
  unfold getBuildData
  cases h1 : m.result.lookup pfx with
  | none =>
    simp only [Option.getD_none, Option.isSome_none, GoMap.lookup_empty, Bool.false_eq_true,
      if_false]
    exact ⟨_, _, GoMap.lookup_insert_self _ _ _, GoMap.lookup_insert_self _ _ _,
      GoMap.lookup_insert_self _ _ _,
      fun k hk => by
        rw [GoMap.lookup_insert_ne _ _ _ _ hk, GoMap.lookup_insert_ne _ _ _ _ hk,
          GoMap.lookup_insert_ne _ _ _ _ hk],
      fun c hc => by
        rw [GoMap.lookup_insert_ne _ _ _ _ hc, GoMap.lookup_insert_ne _ _ _ _ hc]
        rfl,
      fun l hl => by
        rw [GoMap.lookup_insert_ne _ _ _ _ hl]
        rfl⟩
  | some cats0 =>
    simp only [Option.getD_some, Option.isSome_some, if_true]
    cases h2 : cats0.lookup category with
    | none =>
      simp only [Option.getD_none, Option.isSome_none, GoMap.lookup_empty, Bool.false_eq_true,
        if_false]
      exact ⟨_, _, GoMap.lookup_insert_self _ _ _, GoMap.lookup_insert_self _ _ _,
        GoMap.lookup_insert_self _ _ _,
        fun k hk => by
          rw [GoMap.lookup_insert_ne _ _ _ _ hk, GoMap.lookup_insert_ne _ _ _ _ hk],
        fun c hc => by
          rw [GoMap.lookup_insert_ne _ _ _ _ hc, GoMap.lookup_insert_ne _ _ _ _ hc],
        fun l hl => by
          rw [GoMap.lookup_insert_ne _ _ _ _ hl]
          rfl⟩
    | some metrics0 =>
      simp only [Option.getD_some, Option.isSome_some, if_true]
      cases h3 : metrics0.lookup label with
      | none =>
        exact ⟨_, _, GoMap.lookup_insert_self _ _ _, GoMap.lookup_insert_self _ _ _,
          GoMap.lookup_insert_self _ _ _,
          fun k hk => by rw [GoMap.lookup_insert_ne _ _ _ _ hk],
          fun c hc => by rw [GoMap.lookup_insert_ne _ _ _ _ hc],
          fun l hl => by rw [GoMap.lookup_insert_ne _ _ _ _ hl]⟩
      | some p =>
        exact ⟨cats0, metrics0, h1, h2, h3, fun _ _ => rfl, fun _ _ => rfl, fun _ _ => rfl⟩

/-- When the requested slot exists, `getBuildData` changes nothing and returns it. -/
theorem getBuildData_of_slot {F : Type} (m : Mem F) (pfx category label job : String)
    (p : Nat) (h : slot m.result pfx category label = some p) :
    getBuildData m pfx category label job = (m, p) := by
  unfold slot at h
  cases h1 : m.result.lookup pfx with
  | none => simp [h1] at h
  | some cats0 =>
    simp only [h1] at h
    cases h2 : cats0.lookup category with
    | none => simp [h2] at h
    | some metrics0 =>
      simp only [h2] at h
      simp [getBuildData, h1, h2, h]

/-- When the requested slot does not exist, `getBuildData` allocates one new
`BuildData` at the end of the heap and returns its address. -/
theorem getBuildData_of_no_slot {F : Type} (m : Mem F) (pfx category label job : String)
    (h : slot m.result pfx category label = none) :
    (getBuildData m pfx category label job).2 = m.heap.length ∧
      (getBuildData m pfx category label job).1.heap =
        m.heap ++ [{ Builds := GoMap.empty, Job := job, Version := "" }] := by
  unfold slot at h
  cases h1 : m.result.lookup pfx with
  | none => simp [getBuildData, h1, GoMap.lookup_empty]
  | some cats0 =>
    simp only [h1] at h
    cases h2 : cats0.lookup category with
    | none => simp [getBuildData, h1, h2, GoMap.lookup_empty]
    | some metrics0 =>
      simp only [h2] at h
      simp [getBuildData, h1, h2, h]

/-- The slot of the requested path after `getBuildData` is the returned pointer. -/
theorem slot_getBuildData_self {F : Type} (m : Mem F) (pfx category label job : String) :
    slot (getBuildData m pfx category label job).1.result pfx category label =
      some (getBuildData m pfx category label job).2 := by
  obtain ⟨cats, metrics, h1, h2, h3, -, -, -⟩ := getBuildData_shape m pfx category label job
  simp [slot, h1, h2, h3]

/-- Every other path has the slot it had before `getBuildData`. -/
theorem slot_getBuildData_other {F : Type} (m : Mem F) (pfx category label job : String)
    (k c l : String) (h : ¬ (k = pfx ∧ c = category ∧ l = label)) :
    slot (getBuildData m pfx category label job).1.result k c l = slot m.result k c l := by
  obtain ⟨cats, metrics, h1, h2, h3, hk, hc, hl⟩ := getBuildData_shape m pfx category label job
  by_cases e1 : k = pfx
  · subst e1
    by_cases e2 : c = category
    · subst e2
      have e3 : l ≠ label := fun e => h ⟨rfl, rfl, e⟩
      simp only [slot, h1, h2, hl l e3]
      cases h4 : m.result.lookup k with
      | none => simp [GoMap.lookup_empty]
      | some cats0 =>
        cases h5 : cats0.lookup c with
        | none => simp [h5, GoMap.lookup_empty]
        | some metrics0 => simp [h5]
    · simp only [slot, h1, hc c e2]
      cases h4 : m.result.lookup k with
      | none => simp [GoMap.lookup_empty]
      | some cats0 => simp
  · simp only [slot, hk k e1]

/-! ## Lemmas on `sortStrings` -/

theorem sortStrings_perm (l : List String) : (sortStrings l).Perm l :=
  List.perm_insertionSort _ l

theorem sortStrings_sorted (l : List String) : (sortStrings l).Sorted (· ≤ ·) := by
  haveI : IsTotal String (fun a b => a.toList ≤ b.toList) :=
    ⟨fun a b => by
      simp only [← String.le_iff_toList_le]
      exact le_total a b⟩
  haveI : IsTrans String (fun a b => a.toList ≤ b.toList) :=
    ⟨fun a b c => by
      simp only [← String.le_iff_toList_le]
      exact le_trans⟩
  have h := List.sorted_insertionSort (fun a b : String => a.toList ≤ b.toList) l
  exact List.Pairwise.imp (fun hab => String.le_iff_toList_le.mpr hab) h

theorem sortStrings_strict (l : List String) (h : l.Nodup) :
    (sortStrings l).Sorted (· < ·) :=
  (sortStrings_sorted l).lt_of_le ((sortStrings_perm l).nodup_iff.mpr h)

theorem mem_sortStrings (l : List String) (k : String) : k ∈ sortStrings l ↔ k ∈ l :=
  (sortStrings_perm l).mem_iff

/-- The sorted list does not depend on the order in which `range` visits the keys of a
map: two enumerations of the same keys sort to the same list. -/
theorem sortStrings_eq_of_perm (l1 l2 : List String) (h : l1.Perm l2) :
    sortStrings l1 = sortStrings l2 :=
  List.eq_of_perm_of_sorted (((sortStrings_perm l1).trans h).trans (sortStrings_perm l2).symm)
    (sortStrings_sorted l1) (sortStrings_sorted l2)

/-! ## The merge step -/

/-- C4 as stated fails: after `getBuildData` with prefix `E2E` and job `J` on the empty
tree, nothing is stored under the job `J`; the returned pointer is not at
`Tree[job][category][label]`. -/
theorem getBuildData_job_key_counterexample :
    slot (getBuildData (⟨[], GoMap.empty⟩ : Mem Nat) "E2E" "Latency" "PodStartup" "J").1.result
        "J" "Latency" "PodStartup" = none ∧
      slot (getBuildData (⟨[], GoMap.empty⟩ : Mem Nat) "E2E" "Latency" "PodStartup" "J").1.result
        "J" "Latency" "PodStartup" ≠
        some (getBuildData (⟨[], GoMap.empty⟩ : Mem Nat) "E2E" "Latency" "PodStartup" "J").2 := by
  decide

/-- C4, amended: the pointer `getBuildData` returns is the one stored at
`Tree[prefix][category][label]` after the call, and if that slot did not exist before
the call it refers to a new `BuildData` with `Job = job`, `Version = ""` and an empty
`Builds` map. -/
theorem getBuildData_returns_slot {F : Type} (m : Mem F) (pfx category label job : String) :
    slot (getBuildData m pfx category label job).1.result pfx category label =
        some (getBuildData m pfx category label job).2 ∧
      (slot m.result pfx category label = none →
        (getBuildData m pfx category label job).1.deref
            (getBuildData m pfx category label job).2 =
          some { Builds := GoMap.empty, Job := job, Version := "" }) := by
  refine ⟨slot_getBuildData_self m pfx category label job, fun h => ?_⟩
  obtain ⟨h1, h2⟩ := getBuildData_of_no_slot m pfx category label job h
  simp [Mem.deref, h1, h2]

/-- C4 amended, at a concrete input: the first merge into an empty tree. -/
theorem getBuildData_returns_slot_witness :
    slot (⟨[], GoMap.empty⟩ : Mem Nat).result "E2E" "Latency" "PodStartup" = none ∧
      (getBuildData (⟨[], GoMap.empty⟩ : Mem Nat) "E2E" "Latency" "PodStartup" "J").1.deref
          (getBuildData (⟨[], GoMap.empty⟩ : Mem Nat) "E2E" "Latency" "PodStartup" "J").2 =
        some { Builds := GoMap.empty, Job := "J", Version := "" } :=
  ⟨rfl, (getBuildData_returns_slot _ _ _ _ _).2 rfl⟩

/-- C9: `getBuildData` keeps every existing path with its pointer and the `BuildData`
behind it (so an existing slot keeps its `Job` whatever job the call passes), adds no
path but the requested one, and a second call with the same arguments changes nothing
and returns the same pointer. -/
theorem getBuildData_frame {F : Type} (m : Mem F) (pfx category label job : String) :
    (∀ k c l p, slot m.result k c l = some p →
        slot (getBuildData m pfx category label job).1.result k c l = some p ∧
          ∀ b, m.deref p = some b → (getBuildData m pfx category label job).1.deref p = some b) ∧
      (∀ p b, slot m.result pfx category label = some p → m.deref p = some b →
        (getBuildData m pfx category label job).2 = p ∧
          (getBuildData m pfx category label job).1.deref p = some b) ∧
      (∀ k c l, slot m.result k c l = none →
        slot (getBuildData m pfx category label job).1.result k c l ≠ none →
          k = pfx ∧ c = category ∧ l = label) ∧
      getBuildData (getBuildData m pfx category label job).1 pfx category label job =
        getBuildData m pfx category label job := by
  have hheap : ∀ p b, m.deref p = some b →
      (getBuildData m pfx category label job).1.deref p = some b := by
    intro p b hb
    cases hs : slot m.result pfx category label with
    | some q => rw [getBuildData_of_slot m pfx category label job q hs]; exact hb
    | none =>
      obtain ⟨-, h2⟩ := getBuildData_of_no_slot m pfx category label job hs
      simp only [Mem.deref] at hb ⊢
      rw [h2]
      have hlt : p < m.heap.length := (List.getElem?_eq_some_iff.mp hb).1
      rw [List.getElem?_append_left hlt]
      exact hb
  refine ⟨?_, ?_, ?_, ?_⟩
  · intro k c l p hp
    refine ⟨?_, fun b hb => hheap p b hb⟩
    by_cases e : k = pfx ∧ c = category ∧ l = label
    · obtain ⟨rfl, rfl, rfl⟩ := e
      rw [getBuildData_of_slot m k c l job p hp]
      exact hp
    · rw [slot_getBuildData_other m pfx category label job k c l e]
      exact hp
  · intro p b hp hb
    rw [getBuildData_of_slot m pfx category label job p hp]
    exact ⟨rfl, hb⟩
  · intro k c l hnone hsome
    by_contra e
    rw [slot_getBuildData_other m pfx category label job k c l e] at hsome
    exact hsome hnone
  · exact getBuildData_of_slot _ pfx category label job _
      (slot_getBuildData_self m pfx category label job)

/-- C9, at a concrete input: the slot `a / c / l` made for job `old` is requested again
for job `new`; it keeps its pointer and its `BuildData`, `Job` included. -/
theorem getBuildData_frame_witness :
    (slot oneSlot.result "a" "c" "l" = some 0 ∧
      oneSlot.deref 0 = some { Builds := GoMap.empty, Job := "old", Version := "" }) ∧
      (getBuildData oneSlot "a" "c" "l" "new").2 = 0 ∧
      (getBuildData oneSlot "a" "c" "l" "new").1.deref 0 =
        some { Builds := GoMap.empty, Job := "old", Version := "" } :=
  ⟨⟨rfl, rfl⟩, (getBuildData_frame oneSlot "a" "c" "l" "new").2.1 0 _ rfl rfl⟩

/-! ## The query handlers -/

/-- C6: when `tree[job][category]` exists, `ServeMetricNames` serves a list holding
exactly the keys of `tree[job][category]`, each once, in ascending order; when the job
or the category is unknown it serves nothing. -/
theorem ServeMetricNames_spec (tree : JobToCategoryData) (req : Request)
    (job category : String)
    (hjob : getURLParam req "jobname" = (job, true))
    (hcat : getURLParam req "metriccategoryname" = (category, true)) :
    (∀ cats tests, tree.lookup job = some cats → cats.lookup category = some tests →
        ∃ names, ServeMetricNames tree req = some names ∧
          names.Perm tests.keys ∧ names.Nodup ∧ names.Sorted (· < ·) ∧
          ∀ k, k ∈ names ↔ tests.lookup k ≠ none) ∧
      (tree.lookup job = none → ServeMetricNames tree req = none) ∧
      (∀ cats, tree.lookup job = some cats → cats.lookup category = none →
        ServeMetricNames tree req = none) := by
  refine ⟨?_, ?_, ?_⟩
  · intro cats tests h1 h2
    refine ⟨sortStrings tests.keys, ?_, sortStrings_perm _, ?_, ?_, ?_⟩
    · simp [ServeMetricNames, hjob, hcat, h1, h2]
    · exact (sortStrings_perm _).nodup_iff.mpr tests.keys_nodup
    · exact sortStrings_strict _ tests.keys_nodup
    · intro k
      rw [mem_sortStrings, GoMap.mem_keys]
  · intro h1
    simp [ServeMetricNames, hjob, hcat, h1]
  · intro cats h1 h2
    simp [ServeMetricNames, hjob, hcat, h1, h2]

/-- C6, at a concrete input: the two metrics of `E2E / load`, stored in the order
`p99`, `p50`, are served in ascending order, each once. -/
theorem ServeMetricNames_spec_witness :
    (getURLParam (requestOf [("jobname", "E2E"), ("metriccategoryname", "load")]) "jobname" =
        ("E2E", true) ∧
      getURLParam (requestOf [("jobname", "E2E"), ("metriccategoryname", "load")])
        "metriccategoryname" = ("load", true)) ∧
      ∃ names,
        ServeMetricNames smallMem.result
            (requestOf [("jobname", "E2E"), ("metriccategoryname", "load")]) = some names ∧
          names.Perm ["p99", "p50"] ∧ names.Nodup ∧ names.Sorted (· < ·) :=
  ⟨⟨rfl, rfl⟩,
    match (ServeMetricNames_spec smallMem.result
      (requestOf [("jobname", "E2E"), ("metriccategoryname", "load")]) "E2E" "load"
      rfl rfl).1 _ _ rfl rfl with
    | ⟨names, h1, h2, h3, h4, _⟩ => ⟨names, h1, h2, h3, h4⟩⟩

/-- C7: `ServeBuildsData` is total; it serves nothing when the job, the category or the
metric is absent from the tree, and serves the pointer stored at
`tree[job][category][metric]` when the triple is present. -/
theorem ServeBuildsData_spec (tree : JobToCategoryData) (req : Request)
    (job category metric : String)
    (hjob : getURLParam req "jobname" = (job, true))
    (hcat : getURLParam req "metriccategoryname" = (category, true))
    (hmet : getURLParam req "metricname" = (metric, true)) :
    ServeBuildsData tree req = slot tree job category metric ∧
      (tree.lookup job = none → ServeBuildsData tree req = none) ∧
      (∀ cats, tree.lookup job = some cats → cats.lookup category = none →
        ServeBuildsData tree req = none) ∧
      (∀ cats tests, tree.lookup job = some cats → cats.lookup category = some tests →
        tests.lookup metric = none → ServeBuildsData tree req = none) ∧
      (∀ cats tests builds, tree.lookup job = some cats →
        cats.lookup category = some tests → tests.lookup metric = some builds →
          ServeBuildsData tree req = some builds) := by
  refine ⟨?_, ?_, ?_, ?_, ?_⟩
  · simp only [ServeBuildsData, hjob, hcat, hmet, slot]
    cases h1 : tree.lookup job with
    | none => simp
    | some cats =>
      cases h2 : cats.lookup category with
      | none => simp [h2]
      | some tests => cases h3 : tests.lookup metric <;> simp [h2, h3]
  · intro h1
    simp [ServeBuildsData, hjob, hcat, hmet, h1]
  · intro cats h1 h2
    simp [ServeBuildsData, hjob, hcat, hmet, h1, h2]
  · intro cats tests h1 h2 h3
    simp [ServeBuildsData, hjob, hcat, hmet, h1, h2, h3]
  · intro cats tests builds h1 h2 h3
    simp [ServeBuildsData, hjob, hcat, hmet, h1, h2, h3]

/-- C7, at a concrete input: the triple `nope / nope / nope` is absent from the tree
and nothing is served. -/
theorem ServeBuildsData_spec_witness :
    smallMem.result.lookup "nope" = none ∧
      ServeBuildsData smallMem.result
          (requestOf [("jobname", "nope"), ("metriccategoryname", "nope"),
            ("metricname", "nope")]) = none :=
  ⟨rfl, (ServeBuildsData_spec smallMem.result
      (requestOf [("jobname", "nope"), ("metriccategoryname", "nope"), ("metricname", "nope")])
      "nope" "nope" "nope" rfl rfl rfl).2.1 rfl⟩

/-! ## Sequences of merges and `ServeCategoryNames` -/

theorem getBuildData_lookup_ne_none {F : Type} (m : Mem F) (pfx category label job k : String) :
    (getBuildData m pfx category label job).1.result.lookup k ≠ none ↔
      k = pfx ∨ m.result.lookup k ≠ none := by
  obtain ⟨cats, metrics, h1, -, -, hk, -, -⟩ := getBuildData_shape m pfx category label job
  by_cases e : k = pfx
  · subst e
    simp [h1]
  · simp [hk k e, e]

theorem getBuildData_hasCategory {F : Type} (m : Mem F) (pfx category label job k c : String) :
    hasCategory (getBuildData m pfx category label job).1.result k c ↔
      (k = pfx ∧ c = category) ∨ hasCategory m.result k c := by
  obtain ⟨cats, metrics, h1, h2, -, hk, hc, -⟩ := getBuildData_shape m pfx category label job
  unfold hasCategory
  by_cases e : k = pfx
  · subst e
    by_cases e2 : c = category
    · subst e2
      simp [h1, h2]
    · simp only [h1, Option.some.injEq, exists_eq_left', hc c e2, e2, and_false, false_or]
      cases h4 : m.result.lookup k with
      | none => simp [GoMap.lookup_empty]
      | some cats0 => simp
  · simp [hk k e, e]

theorem applyMerges_lookup_ne_none {F : Type} (ms : List Merge) (m : Mem F) (k : String) :
    (applyMerges m ms).result.lookup k ≠ none ↔
      m.result.lookup k ≠ none ∨ ∃ x ∈ ms, x.pfx = k := by
  induction ms generalizing m with
  | nil => simp [applyMerges]
  | cons x rest ih =>
    rw [applyMerges, ih, getBuildData_lookup_ne_none]
    simp only [List.mem_cons, exists_eq_or_imp]
    constructor
    · rintro ((h | h) | h)
      · exact Or.inr (Or.inl h.symm)
      · exact Or.inl h
      · exact Or.inr (Or.inr h)
    · rintro (h | h | h)
      · exact Or.inl (Or.inr h)
      · exact Or.inl (Or.inl h.symm)
      · exact Or.inr h

theorem applyMerges_hasCategory {F : Type} (ms : List Merge) (m : Mem F) (k c : String) :
    hasCategory (applyMerges m ms).result k c ↔
      hasCategory m.result k c ∨ ∃ x ∈ ms, x.pfx = k ∧ x.category = c := by
  induction ms generalizing m with
  | nil => simp [applyMerges]
  | cons x rest ih =>
    rw [applyMerges, ih, getBuildData_hasCategory]
    simp only [List.mem_cons, exists_eq_or_imp]
    constructor
    · rintro ((⟨h1, h2⟩ | h) | h)
      · exact Or.inr (Or.inl ⟨h1.symm, h2.symm⟩)
      · exact Or.inl h
      · exact Or.inr (Or.inr h)
    · rintro (h | ⟨h1, h2⟩ | h)
      · exact Or.inl (Or.inr h)
      · exact Or.inl (Or.inl ⟨h1.symm, h2.symm⟩)
      · exact Or.inr h

/-- C5 as stated fails: after one merge with prefix `E2E` for job `J`,
`ServeCategoryNames` with `jobname = J` serves nothing, not the category of that
merge. -/
theorem ServeCategoryNames_job_counterexample :
    ServeCategoryNames
        (applyMerges (⟨[], GoMap.empty⟩ : Mem Nat)
          [⟨"E2E", "Latency", "PodStartup", "J"⟩]).result
        (requestOf [("jobname", "J")]) = none ∧
      ServeCategoryNames
        (applyMerges (⟨[], GoMap.empty⟩ : Mem Nat)
          [⟨"E2E", "Latency", "PodStartup", "J"⟩]).result
        (requestOf [("jobname", "J")]) ≠ some ["Latency"] := by
  decide

/-- C5, amended: after any sequence of `getBuildData` calls on an empty tree, for a
first-level key `K` that is the prefix of at least one call, `ServeCategoryNames` with
`jobname = K` serves exactly the category names of the calls whose prefix is `K`, in
strictly ascending order (so without duplicates); for a `K` that is the prefix of no
call it serves nothing. -/
theorem ServeCategoryNames_applyMerges (F : Type) (ms : List Merge) (K : String)
    (req : Request) (hreq : getURLParam req "jobname" = (K, true)) :
    ((∃ x ∈ ms, x.pfx = K) →
        ∃ names,
          ServeCategoryNames (applyMerges (⟨[], GoMap.empty⟩ : Mem F) ms).result req =
              some names ∧
            names.Sorted (· < ·) ∧
            ∀ c, c ∈ names ↔ ∃ x ∈ ms, x.pfx = K ∧ x.category = c) ∧
      ((¬ ∃ x ∈ ms, x.pfx = K) →
        ServeCategoryNames (applyMerges (⟨[], GoMap.empty⟩ : Mem F) ms).result req = none) := by
  have hlook := applyMerges_lookup_ne_none ms (⟨[], GoMap.empty⟩ : Mem F) K
  have hcat := fun c => applyMerges_hasCategory ms (⟨[], GoMap.empty⟩ : Mem F) K c
  simp only [GoMap.lookup_empty, ne_eq, not_true_eq_false, false_or] at hlook
  have hempty : ∀ c, ¬ hasCategory (⟨[], GoMap.empty⟩ : Mem F).result K c := by
    rintro c ⟨cats, h, -⟩
    simp [GoMap.lookup_empty] at h
  refine ⟨fun hex => ?_, fun hno => ?_⟩
  · cases h1 : (applyMerges (⟨[], GoMap.empty⟩ : Mem F) ms).result.lookup K with
    | none => exact absurd h1 (hlook.mpr hex)
    | some tests =>
      refine ⟨sortStrings tests.keys, ?_, sortStrings_strict _ tests.keys_nodup, fun c => ?_⟩
      · simp [ServeCategoryNames, hreq, h1]
      · rw [mem_sortStrings, GoMap.mem_keys]
        have h2 := hcat c
        simp only [hempty c, false_or] at h2
        rw [← h2]
        simp [hasCategory, h1]
  · have h1 : (applyMerges (⟨[], GoMap.empty⟩ : Mem F) ms).result.lookup K = none := by
      by_contra h
      exact hno (hlook.mp h)
    simp [ServeCategoryNames, hreq, h1]

/-- C5 amended, at a concrete input: three merges under the key `E2E`, two of them
into the same category. -/
theorem ServeCategoryNames_applyMerges_witness :
    (getURLParam (requestOf [("jobname", "E2E")]) "jobname" = ("E2E", true) ∧
      ∃ x ∈ smallMerges, x.pfx = "E2E") ∧
      ∃ names,
        ServeCategoryNames (applyMerges (⟨[], GoMap.empty⟩ : Mem Nat) smallMerges).result
            (requestOf [("jobname", "E2E")]) = some names ∧
          names.Sorted (· < ·) ∧
          ∀ c, c ∈ names ↔ ∃ x ∈ smallMerges, x.pfx = "E2E" ∧ x.category = c :=
  ⟨⟨rfl, ⟨"E2E", "load", "p99", "J"⟩, List.mem_cons_self _ _, rfl⟩,
    (ServeCategoryNames_applyMerges Nat smallMerges "E2E" (requestOf [("jobname", "E2E")])
      rfl).1 ⟨⟨"E2E", "load", "p99", "J"⟩, List.mem_cons_self _ _, rfl⟩⟩

/-! ## The downloader -/

theorem getJobData_result {F : Type} (w : World F) (g : Downloader) (m : Mem F) :
    (getJobData w g m).result =
      (getBuildData m "E2E" "configmap_vol_per_node_E2E" "PodStartup"
        "ci-kubernetes-storage-scalability").1.result := by
  simp only [getJobData]
  split <;> rfl

/-- C8, the code at the input of the claim: whatever the local file holds and whatever
`parsePerfData` does, `getData` with the store of the claim (builds 1 and 2 of job `J`,
one `E2E_Latency` artifact each) returns a tree whose only first-level key is `E2E`,
with the single slot `configmap_vol_per_node_E2E / PodStartup`; nothing is stored under
`J`. -/
theorem getData_ignores_store {F : Type} (w : World F) (opts : DownloaderOptions) :
    (getData w ⟨stubBucket, opts⟩).result.keys = ["E2E"] ∧
      (getData w ⟨stubBucket, opts⟩).result.lookup "J" = none ∧
      slot (getData w ⟨stubBucket, opts⟩).result "J" "Latency" "Latency" = none ∧
      slot (getData w ⟨stubBucket, opts⟩).result "E2E" "configmap_vol_per_node_E2E"
        "PodStartup" = some 0 := by
  simp only [getData, getJobData_result]
  exact ⟨rfl, rfl, rfl, rfl⟩

/-! ## The conversion loop of `run` -/

theorem GoMap.mem_keys_insert {V : Type} (m : GoMap V) (k k2 : String) (v : V) :
    k2 ∈ (m.insert k v).keys ↔ k2 = k ∨ k2 ∈ m.keys := by
  rw [GoMap.mem_keys, GoMap.mem_keys]
  by_cases e : k2 = k
  · subst e
    simp [GoMap.lookup_insert_self]
  · simp [GoMap.lookup_insert_ne _ _ _ _ e, e]

theorem mem_keys_convertLoop {F : Type} (customLabel : Label) (l : List (JerryDataItem F))
    (i : Nat) (m : GoMap (List (DataItem F))) (k : String) :
    k ∈ (convertLoop customLabel i l m).keys ↔
      k ∈ m.keys ∨ ∃ j, i ≤ j ∧ j < i + l.length ∧ runeString j = k := by
  induction l generalizing i m with
  | nil =>
    simp only [convertLoop, List.length_nil, Nat.add_zero, iff_self_or]
    rintro ⟨j, h1, h2, -⟩
    omega
  | cons temp rest ih =>
    rw [convertLoop, ih, GoMap.mem_keys_insert]
    constructor
    · rintro ((h | h) | ⟨j, h1, h2, h3⟩)
      · exact Or.inr ⟨i, le_refl i, by simp, h.symm⟩
      · exact Or.inl h
      · exact Or.inr ⟨j, by omega, by simp only [List.length_cons]; omega, h3⟩
    · rintro (h | ⟨j, h1, h2, h3⟩)
      · exact Or.inl (Or.inr h)
      · by_cases e : j = i
        · subst e
          exact Or.inl (Or.inl h3.symm)
        · exact Or.inr ⟨j, by omega, by simp only [List.length_cons] at h2; omega, h3⟩

theorem runeOf_isValidChar (i : Nat) : (runeOf i).isValidChar := by
  unfold runeOf Nat.isValidChar
  split <;> omega

theorem toNat_ofNat_runeOf (i : Nat) : (Char.ofNat (runeOf i)).toNat = runeOf i := by
  simp [Char.ofNat, runeOf_isValidChar i, Char.toNat, Char.ofNatAux, UInt32.toNat]

theorem runeString_eq_iff (i j : Nat) : runeString i = runeString j ↔ runeOf i = runeOf j := by
  constructor
  · intro h
    have h1 : (runeString i).data = (runeString j).data := by rw [h]
    have h2 : Char.ofNat (runeOf i) = Char.ofNat (runeOf j) := by
      simpa [runeString, String.singleton] using h1
    rw [← toNat_ofNat_runeOf i, ← toNat_ofNat_runeOf j, h2]
  · intro h
    simp [runeString, h]

theorem runeString_surrogates : runeString 55296 = runeString 55297 :=
  (runeString_eq_iff _ _).mpr (by decide)

/-- Up to index 55296 the keys `string(i)` are pairwise distinct. -/
theorem runeString_inj_short (i j : Nat) (hi : i ≤ 55296) (hj : j ≤ 55296)
    (h : runeString i = runeString j) : i = j := by
  rw [runeString_eq_iff] at h
  unfold runeOf at h
  split at h <;> split at h <;> omega

theorem lookup_convertLoop_of_fresh {F : Type} (customLabel : Label)
    (l : List (JerryDataItem F)) (i : Nat) (m : GoMap (List (DataItem F))) (k : String)
    (h : ∀ j, i ≤ j → j < i + l.length → runeString j ≠ k) :
    (convertLoop customLabel i l m).lookup k = m.lookup k := by
  induction l generalizing i m with
  | nil => rfl
  | cons temp rest ih =>
    rw [convertLoop, ih]
    · exact GoMap.lookup_insert_ne _ _ _ _
        (fun e => h i (le_refl i) (by simp) e.symm)
    · intro j h1 h2
      exact h j (by omega) (by simp only [List.length_cons]; omega)

/-- While the keys of the indices visited are pairwise distinct, the loop stores each
entry under its own key. -/
theorem lookup_convertLoop {F : Type} (customLabel : Label) (l : List (JerryDataItem F))
    (i : Nat) (m : GoMap (List (DataItem F)))
    (hinj : ∀ a b, i ≤ a → a < i + l.length → i ≤ b → b < i + l.length →
      runeString a = runeString b → a = b)
    (t : Nat) (ht : t < l.length) :
    (convertLoop customLabel i l m).lookup (runeString (i + t)) =
      some [tempDataItem customLabel (l.get ⟨t, ht⟩)] := by
  induction l generalizing i m t with
  | nil => simp at ht
  | cons temp rest ih =>
    rw [convertLoop]
    cases t with
    | zero =>
      rw [lookup_convertLoop_of_fresh]
      · simpa using GoMap.lookup_insert_self m (runeString i) [tempDataItem customLabel temp]
      · intro j h1 h2 e
        have := hinj j i (by omega) (by simp only [List.length_cons]; omega) (le_refl i)
          (by simp) (by simpa using e)
        omega
    | succ t =>
      have ht2 : t < rest.length := by simpa using ht
      have h := ih (i + 1) (m.insert (runeString i) [tempDataItem customLabel temp])
        (fun a b ha1 ha2 hb1 hb2 e =>
          hinj a b (by omega) (by simp only [List.length_cons]; omega) (by omega)
            (by simp only [List.length_cons]; omega) e) t ht2
      have e : i + (t + 1) = i + 1 + t := by omega
      rw [e, h]
      rfl

/-- Up to 55297 decoded entries the loop loses nothing: the `Builds` map has one key
per entry, and the key of index `t` holds the single data item made from entry `t`. -/
theorem jerryBuilds_short {F : Type} (customLabel : Label) (d : JerryBuildData F)
    (h : d.Builds.length ≤ 55297) :
    (jerryBuilds customLabel d).keys.length = d.Builds.length ∧
      ∀ t (ht : t < d.Builds.length),
        (jerryBuilds customLabel d).lookup (runeString t) =
          some [tempDataItem customLabel (d.Builds.get ⟨t, ht⟩)] := by
  constructor
  · have himg : (jerryBuilds customLabel d).keys.toFinset =
        Finset.image runeString (Finset.range d.Builds.length) := by
      ext k
      rw [List.mem_toFinset, jerryBuilds, mem_keys_convertLoop, Finset.mem_image]
      constructor
      · rintro (hk | ⟨j, -, hj, rfl⟩)
        · simp [GoMap.keys_empty] at hk
        · exact ⟨j, by simp; omega, rfl⟩
      · rintro ⟨j, hj, rfl⟩
        exact Or.inr ⟨j, Nat.zero_le j, by simpa using hj, rfl⟩
    rw [← List.toFinset_card_of_nodup (jerryBuilds customLabel d).keys_nodup, himg,
      Finset.card_image_of_injOn, Finset.card_range]
    intro a ha b hb e
    simp only [Finset.coe_range, Set.mem_Iio] at ha hb
    exact runeString_inj_short a b (by omega) (by omega) e
  · intro t ht
    have := lookup_convertLoop customLabel d.Builds 0 GoMap.empty
      (fun a b _ ha _ hb e => runeString_inj_short a b (by omega) (by omega) e) t ht
    simpa [jerryBuilds] using this

/-- C10, the code on a long list: the indices 55296 and 55297 (the surrogate code
points U+D800 and U+D801) both convert to the text of U+FFFD, so from 55298 decoded
entries on the `Builds` map has fewer keys than the list has entries. -/
theorem jerryBuilds_loses_entries {F : Type} (customLabel : Label) (d : JerryBuildData F)
    (h : 55298 ≤ d.Builds.length) :
    (jerryBuilds customLabel d).keys.length < d.Builds.length := by
  have hsub : (jerryBuilds customLabel d).keys.toFinset ⊆
      Finset.image runeString ((Finset.range d.Builds.length).erase 55297) := by
    intro k hk
    rw [List.mem_toFinset, jerryBuilds, mem_keys_convertLoop] at hk
    rcases hk with hk | ⟨j, -, hj, rfl⟩
    · simp [GoMap.keys_empty] at hk
    · rw [Finset.mem_image]
      by_cases e : j = 55297
      · subst e
        exact ⟨55296, by simp; omega, runeString_surrogates⟩
      · exact ⟨j, by simp [e]; omega, rfl⟩
  have hcard : (jerryBuilds customLabel d).keys.length =
      (jerryBuilds customLabel d).keys.toFinset.card :=
    (List.toFinset_card_of_nodup (jerryBuilds customLabel d).keys_nodup).symm
  have h1 := Finset.card_le_card hsub
  have h2 : (Finset.image runeString ((Finset.range d.Builds.length).erase 55297)).card ≤
      ((Finset.range d.Builds.length).erase 55297).card := Finset.card_image_le
  have h3 : ((Finset.range d.Builds.length).erase 55297).card = d.Builds.length - 1 := by
    rw [Finset.card_erase_of_mem (by simp; omega), Finset.card_range]
  omega

/-- C10, at a concrete input: 55298 equal entries. -/
theorem jerryBuilds_loses_entries_witness :
    55298 ≤ (longData.Builds).length ∧
      (jerryBuilds ⟨"test-metric"⟩ longData).keys.length < (longData.Builds).length :=
  ⟨(List.length_replicate 55298 _).ge,
    jerryBuilds_loses_entries ⟨"test-metric"⟩ longData (List.length_replicate 55298 _).ge⟩

end Perfdash
